import Mathlib

/-!
Verification of the chriswa-devkit core components against their
natural-language specification: the rule-based command guard engine
(the `claude-hook` driver plus the pretooluse bash rules, and the
standalone `bash-git` guard script) and the session transcript search
tool (`session-search.ts` / `claude-session-search.ts`).

The TypeScript sources are shallowly embedded: strings are Lean
`String`s (lists of characters; JavaScript string indices are modelled
as character positions), the specific regular expressions the code
tests are embedded as executable Boolean functions over `List Char`,
JSON parsing of standard input and of transcript lines is abstracted at
the `JSON.parse` boundary (a parse failure is an explicit constructor),
and process effects (exit code, the decision document on stdout, a
stderr diagnostic, the success of the debug-file write) are explicit
values.
-/

namespace Devkit

/-! ## Characters and strings

Character-class helpers for the embedded regular expressions.
JavaScript `\s` is modelled by its ASCII members (space, tab, newline,
carriage return, vertical tab, form feed); the commands evaluated by
the guards are ASCII shell commands. -/

/-- Membership in the JavaScript `\s` class, restricted to ASCII. -/
def isJsWs (c : Char) : Bool :=
  decide (c = ' ') || decide (c = '\t') || decide (c = '\n') ||
  decide (c = '\r') || decide (c = '\x0b') || decide (c = '\x0c')

/-- Membership in the JavaScript `\w` class (`[A-Za-z0-9_]`), used for the
`\b` word-boundary assertions of the git regexes. -/
def isWordChar (c : Char) : Bool :=
  (decide ('a' ≤ c) && decide (c ≤ 'z')) ||
  (decide ('A' ≤ c) && decide (c ≤ 'Z')) ||
  (decide ('0' ≤ c) && decide (c ≤ '9')) || decide (c = '_')

/-- ASCII letter, for the `[a-zA-Z]` class of the grep recursive-flag regex. -/
def isAsciiLetter (c : Char) : Bool :=
  (decide ('a' ≤ c) && decide (c ≤ 'z')) || (decide ('A' ≤ c) && decide (c ≤ 'Z'))

/-- Drop a maximal run of whitespace characters (the greedy part of `\s+`). -/
def skipWs : List Char → List Char
  | [] => []
  | c :: rest => if isJsWs c then skipWs rest else c :: rest

/-- JavaScript `String.prototype.trim`: strip whitespace from both ends. -/
def trimJs (s : String) : String :=
  ⟨((s.data.dropWhile isJsWs).reverse.dropWhile isJsWs).reverse⟩

/-- Whether `pre` is a prefix of `cs` (character-exact). -/
def isPrefixL : List Char → List Char → Bool
  | [], _ => true
  | _ :: _, [] => false
  | a :: pre, b :: cs => decide (a = b) && isPrefixL pre cs

/-- JavaScript `String.prototype.includes`, on character lists. -/
def containsSub (needle : List Char) : List Char → Bool
  | [] => isPrefixL needle []
  | c :: rest => isPrefixL needle (c :: rest) || containsSub needle rest

/-- JavaScript `String.prototype.startsWith`, as a character-list prefix
test (character-list equality coincides with string equality). -/
def startsWithStr (s pre : String) : Bool :=
  isPrefixL pre.data s.data

/-- JavaScript `String.prototype.endsWith` / Node suffix checks. -/
def endsWithStr (s suf : String) : Bool :=
  isPrefixL suf.data.reverse s.data.reverse

/-- Drop the last `n` characters of a string. -/
def dropRightStr (s : String) (n : Nat) : String :=
  ⟨s.data.take (s.data.length - n)⟩

/-- JavaScript `String.prototype.indexOf` restricted to the case where the
needle occurs (the code only reads it under an `includes` guard); on a
miss it returns the haystack length. -/
def firstMatchIdx (needle : List Char) : List Char → Nat
  | [] => 0
  | c :: rest => if isPrefixL needle (c :: rest) then 0 else firstMatchIdx needle rest + 1

/-- JavaScript `toLowerCase` on the ASCII range (`Char.toLower` lowers
exactly `A`–`Z`, matching the effect on the ASCII commands and
transcripts involved). -/
def toLowerL (cs : List Char) : List Char := cs.map Char.toLower

/-- Case-insensitive `includes`, as in `content.toLowerCase().includes(search.toLowerCase())`. -/
def containsIgnoreCase (hay needle : String) : Bool :=
  containsSub (toLowerL needle.data) (toLowerL hay.data)

/-! ## The embedded regular expression tests

Each `re…` definition embeds one regular-expression test appearing in
the guard sources. They are written as Boolean functions over the
character list of the (already normalized) command. -/

/-- The test `/^git\s/` (git.ts line 18, bash-git.ts line 16). -/
def reGitSpace (cs : List Char) : Bool :=
  decide (cs.take 3 = ['g', 'i', 't']) &&
    (match cs.drop 3 with
     | c :: _ => isJsWs c
     | [] => false)

/-- After `\s+` has been consumed: the `add\b` tail of `/^git\s+add\b/`. -/
def addAfterWs (cs : List Char) : Bool :=
  decide (cs.take 3 = ['a', 'd', 'd']) &&
    (match cs.drop 3 with
     | c :: _ => !isWordChar c
     | [] => true)

/-- The `\s+add\b` part of `/^git\s+add\b/`: one whitespace character,
any further whitespace, then `add` at a word boundary. -/
def wsThenAdd : List Char → Bool
  | [] => false
  | c :: rest => isJsWs c && addAfterWs (skipWs rest)

/-- The test `/^git\s+add\b/` (git.ts line 40, bash-git.ts line 51). -/
def reGitAdd (cs : List Char) : Bool :=
  decide (cs.take 3 = ['g', 'i', 't']) && wsThenAdd (cs.drop 3)

/-- After `\s+` has been consumed: the `commit\b` tail of `/git\s+commit\b/`. -/
def commitAfterWs (cs : List Char) : Bool :=
  decide (cs.take 6 = ['c', 'o', 'm', 'm', 'i', 't']) &&
    (match cs.drop 6 with
     | c :: _ => !isWordChar c
     | [] => true)

/-- The `\s+commit\b` part of `/git\s+commit\b/`. -/
def wsThenCommit : List Char → Bool
  | [] => false
  | c :: rest => isJsWs c && commitAfterWs (skipWs rest)

/-- A match of `git\s+commit\b` anchored at the head of `cs`. -/
def gitCommitAt (cs : List Char) : Bool :=
  decide (cs.take 3 = ['g', 'i', 't']) && wsThenCommit (cs.drop 3)

/-- The unanchored test `/git\s+commit\b/` (git.ts lines 24 and 40). -/
def containsGitCommit : List Char → Bool
  | [] => false
  | c :: rest => gitCommitAt (c :: rest) || containsGitCommit rest

/-- A match of `-m\s` anchored at the head of `cs`. -/
def dashMWsAt (cs : List Char) : Bool :=
  decide (cs.take 2 = ['-', 'm']) &&
    (match cs.drop 2 with
     | c :: _ => isJsWs c
     | [] => false)

/-- The unanchored regex test for `-m` followed by whitespace (git.ts line 24). -/
def containsDashMWs : List Char → Bool
  | [] => false
  | c :: rest => dashMWsAt (c :: rest) || containsDashMWs rest

/-- The test `/^cd(\s|$)/` (the cd rule). -/
def reCd (cs : List Char) : Bool :=
  decide (cs.take 2 = ['c', 'd']) &&
    (match cs.drop 2 with
     | c :: _ => isJsWs c
     | [] => true)

/-- The test `/^find\s/` (the find rule). -/
def reFind (cs : List Char) : Bool :=
  decide (cs.take 4 = ['f', 'i', 'n', 'd']) &&
    (match cs.drop 4 with
     | c :: _ => isJsWs c
     | [] => false)

/-- The test `/^grep\s/` part of the grep rule's trigger. -/
def reGrep (cs : List Char) : Bool :=
  decide (cs.take 4 = ['g', 'r', 'e', 'p']) &&
    (match cs.drop 4 with
     | c :: _ => isJsWs c
     | [] => false)

/-- A match of `\s-[a-zA-Z]*r` anchored at the head of `cs`: a whitespace
character, `-`, then letters up to an `r`.  Such a match exists exactly
when an `r` occurs within the maximal letter run after the dash. -/
def wsDashRAt (cs : List Char) : Bool :=
  match cs with
  | a :: b :: rest => isJsWs a && decide (b = '-') && (rest.takeWhile isAsciiLetter).contains 'r'
  | _ => false

/-- The unanchored half `\s-[a-zA-Z]*r` of the recursive-flag test. -/
def containsWsDashR : List Char → Bool
  | [] => false
  | c :: rest => wsDashRAt (c :: rest) || containsWsDashR rest

/-- The test `/\s-[a-zA-Z]*r|--recursive/` (bash-grep.ts line 9). -/
def reGrepRecursiveFlag (cs : List Char) : Bool :=
  containsWsDashR cs || containsSub "--recursive".data cs

/-! ## JavaScript `split(/\s+/)` -/

mutual

/-- Continuation of `splitWsGo` just after a separator character: consume
the rest of the whitespace run, then start the next piece. -/
def splitWsStart : List Char → List (List Char)
  | [] => [[]]
  | c :: rest => if isJsWs c then splitWsStart rest else splitWsGo [c] rest

/-- Accumulate the current piece (reversed in `acc`) until the next
whitespace run or the end of the string. -/
def splitWsGo (acc : List Char) : List Char → List (List Char)
  | [] => [acc.reverse]
  | c :: rest => if isJsWs c then acc.reverse :: splitWsStart rest else splitWsGo (c :: acc) rest

end

/-- JavaScript `cmd.split(/\s+/)`: split on maximal whitespace runs,
keeping the empty pieces JavaScript keeps at the boundaries. -/
def splitWs (s : String) : List String :=
  (splitWsGo [] s.data).map fun l => ⟨l⟩

/-! ## The guard rule data model (types.ts) -/

/-- The three permission verdicts of the hook protocol. -/
inductive Verdict where
  | allow
  | deny
  | ask
deriving DecidableEq, Repr

/-- `RuleDecision` of types.ts: verdict, human-readable reason, priority. -/
structure RuleDecision where
  decision : Verdict
  reason : String
  priority : Int
deriving DecidableEq, Repr

/-- `RuleContext` of types.ts. -/
structure RuleContext where
  toolName : String
  command : String
  normalizedCommand : String
deriving DecidableEq, Repr

/-- `Rule` of types.ts: a pure function from context to optional decision. -/
def Rule : Type := RuleContext → Option RuleDecision

/-- The fixed allow-list of read-only git subcommands
(`GIT_READONLY_COMMANDS`, identical in git.ts and bash-git.ts). -/
def GIT_READONLY_COMMANDS : List String :=
  ["status", "diff", "show", "log", "shortlog", "reflog", "blame", "annotate",
   "grep", "ls-files", "ls-tree", "ls-remote", "cat-file", "rev-parse",
   "rev-list", "describe", "name-rev", "for-each-ref", "var", "fsck",
   "verify-commit", "verify-tag", "check-ignore", "check-attr", "check-mailmap",
   "diff-tree", "diff-files", "diff-index", "range-diff", "help", "version",
   "count-objects", "cherry", "whatchanged", "merge-base", "get-tar-commit-id"]

/-- Reason string of the multiline-commit deny in git.ts. -/
def multilineCommitReason : String :=
  "Commit messages should be one line only. Please use a single-line commit message without newlines."

/-- Reason string of the add-without-commit deny in git.ts. -/
def gitAddReason : String :=
  "Do not perform linked git operations separately. Commit messages should be single-line. Use `&&` to chain git add, commit, and push together so the user can approve everything all at once.\n\nExample: git add foo.ts bar.ts && git commit -m \"Your commit message\" && git push"

/-- Reason string of the git mutation ask in git.ts and bash-git.ts. -/
def gitMutationReason : String :=
  "Git Mutation Guard: This git command potentially modifies repository state and requires approval."

/-- The winning decision of the multiline-commit guard (priority 120). -/
def multilineCommitDecision : RuleDecision :=
  ⟨.deny, multilineCommitReason, 120⟩

/-- The winning decision of the add-without-commit guard (priority 110). -/
def gitAddDenyDecision : RuleDecision :=
  ⟨.deny, gitAddReason, 110⟩

/-- The winning decision of the git mutation guard (priority 100). -/
def gitMutationAskDecision : RuleDecision :=
  ⟨.ask, gitMutationReason, 100⟩

/-- The git rule of src/claude/hooks/pretooluse/bash/git.ts (`evaluate`):
multiline-commit guard, add-without-commit guard, then the mutation
guard over the raw second whitespace token (`split(/\s+/)[1] ?? ''`).
Note that this variant does not skip global flags such as `-C` before
reading the subcommand. -/
def gitEvaluate : Rule := fun ctx =>
  let cs := ctx.normalizedCommand.data
  if !reGitSpace cs then none
  else if containsGitCommit cs && containsDashMWs cs && cs.contains '\n' then
    some multilineCommitDecision
  else if reGitAdd cs && !containsGitCommit cs then
    some gitAddDenyDecision
  else if !(GIT_READONLY_COMMANDS.contains ((splitWs ctx.normalizedCommand).getD 1 "")) then
    some gitMutationAskDecision
  else none

/-- The cd rule (src/unnamed/part_004 `evaluate`): deny any `cd` command. -/
def cdEvaluate : Rule := fun ctx =>
  if !reCd ctx.normalizedCommand.data then none
  else some ⟨.deny, "CD Guard: cd commands should be wrapped in a subshell: (cd subdir && command)", 30⟩

/-- The find rule (src/unnamed/part_005 `evaluate`): deny `find` without a
`node_modules` exclusion. -/
def findEvaluate : Rule := fun ctx =>
  let cs := ctx.normalizedCommand.data
  if !reFind cs then none
  else if containsSub "node_modules".data cs then none
  else some ⟨.deny, "To avoid excessive delays, do not use `find` without excluding `node_modules`", 50⟩

/-- Modelled from the spec: the engine-form grep rule.  The rule set of
the engine is loaded from a `bash/pretooluse/index.ts` that is not among
the repository files; the spec's rule catalog lists a
grep-recursive-without-exclusion rule (deny, priority 50) whose trigger
and exclusion test are those of the standalone
src/default-plugin/hooks/bash/bash-grep.ts script. -/
def grepEvaluate : Rule := fun ctx =>
  let cs := ctx.normalizedCommand.data
  if !(reGrep cs && reGrepRecursiveFlag cs) then none
  else if containsSub "node_modules".data cs then none
  else some ⟨.deny, "Grep Guard: To avoid excessive delays, do not use `grep -r` without excluding `node_modules`", 50⟩

/-- Modelled from the spec: the rule registration list.  The driver
(src/unnamed/part_000) loads every function exported by
`bash/pretooluse/index.ts`, a file not among the repository files; per
the spec's catalog the registered rules are the git, cd, find and grep
rules.  The registration order only matters for priority ties, which no
two distinct rules of this catalog can produce on one command. -/
def engineRules : List Rule := [gitEvaluate, cdEvaluate, findEvaluate, grepEvaluate]

/-! ## The guard engine driver (src/unnamed/part_000) -/

/-- The `reduce` of part_000 lines 117-119: keep the current maximum
unless the next decision's priority is strictly greater. -/
def highestPriority (mx : RuleDecision) : List RuleDecision → RuleDecision
  | [] => mx
  | curr :: rest => highestPriority (if curr.priority > mx.priority then curr else mx) rest

/-- The decisions collected for one command (part_000 lines 106-108):
every rule is run on the shared context and the `null` answers dropped. -/
def decisionsFor (rules : List Rule) (actualToolName command : String) : List RuleDecision :=
  rules.filterMap fun r => r ⟨actualToolName, command, trimJs command⟩

/-- The winning decision for one command, `none` when no rule fired
(part_000 lines 111-122). -/
def finalDecision (rules : List Rule) (actualToolName command : String) : Option RuleDecision :=
  match decisionsFor rules actualToolName command with
  | [] => none
  | d :: ds => some (highestPriority d ds)

/-! ## The hook driver process (src/unnamed/part_000)

Standard input is modelled at the `JSON.parse` boundary: a value of
`Option Json`, where `none` stands for text that is not valid JSON
(`JSON.parse` throws).  The zod `HookInputSchema` is embedded over the
`Json` tree.  A process run is summarised by its exit code, the
decision document written to standard output (if any), and whether a
diagnostic reached standard error. -/

/-- A JSON value, as produced by `JSON.parse`. -/
inductive Json where
  | null
  | bool (b : Bool)
  | num (n : Int)
  | str (s : String)
  | arr (xs : List Json)
  | obj (fields : List (String × Json))

/-- Look up a field of a JSON object. -/
def jObjFind (key : String) : List (String × Json) → Option Json
  | [] => none
  | (k, v) :: rest => if k = key then some v else jObjFind key rest

/-- The parse of the zod `HookInputSchema`:
`{ tool_name?: string, tool_input?: { command?: string } }`. -/
structure HookInput where
  tool_name : Option String
  tool_input : Option (Option String)
deriving DecidableEq, Repr

/-- A zod `z.string().optional()` field: absent is fine, a present
non-string fails the whole parse. -/
def parseOptString : Option Json → Option (Option String)
  | none => some none
  | some (.str s) => some (some s)
  | some _ => none

/-- `HookInputSchema.safeParse` (part_000 lines 43-48): the top level and
`tool_input` must be objects, `tool_name` and `command` strings when
present; unknown keys are stripped. -/
def hookInputSafeParse : Json → Option HookInput
  | .obj fields =>
    match parseOptString (jObjFind "tool_name" fields) with
    | none => none
    | some tn =>
      match jObjFind "tool_input" fields with
      | none => some ⟨tn, none⟩
      | some (.obj tiFields) =>
        match parseOptString (jObjFind "command" tiFields) with
        | none => none
        | some cmd => some ⟨tn, some cmd⟩
      | some _ => none
  | _ => none

/-- `toolName.charAt(0).toUpperCase() + toolName.slice(1)` (part_000 line 92). -/
def capitalizeFirst (s : String) : String :=
  match s.data with
  | [] => ""
  | c :: rest => ⟨c.toUpper :: rest⟩

/-- The decision document the driver prints
(`hookSpecificOutput.permissionDecision` and its reason; the event name
is the constant `PreToolUse`). -/
structure HookOutput where
  permissionDecision : Verdict
  permissionDecisionReason : String
deriving DecidableEq, Repr

/-- One run of the driver process: its exit code, the decision document
written to standard output (if any), and whether a diagnostic was
written to standard error. -/
structure EngineRun where
  exitCode : Nat
  stdoutDecision : Option HookOutput
  stderrDiagnostic : Bool
deriving DecidableEq, Repr

/-- The driver process of part_000, from the point where the rules are
loaded: read stdin, save it to the debug file (`writeFileSync`, line 64
— not guarded by any try/catch, so a failed write crashes the process
before anything is parsed), `JSON.parse` + `HookInputSchema.safeParse`
(invalid input exits 1 with a stderr diagnostic and no decision),
tool-name gate, then rule evaluation and the highest-priority decision.
`debugWriteOk` is the outcome of the debug-file write; `stdinJson` is
`none` when stdin is not valid JSON. -/
def runGuardEngine (toolNameArg : String) (rules : List Rule)
    (stdinJson : Option Json) (debugWriteOk : Bool) : EngineRun :=
  if !debugWriteOk then ⟨1, none, true⟩
  else
    match stdinJson with
    | none => ⟨1, none, true⟩
    | some j =>
      match hookInputSafeParse j with
      | none => ⟨1, none, true⟩
      | some data =>
        let actualToolName := data.tool_name.getD ""
        let command := (data.tool_input.getD none).getD ""
        let expected := capitalizeFirst toolNameArg
        if data.tool_name ≠ some expected then
          ⟨0, some ⟨.allow, "Not a " ++ expected ++ " tool call"⟩, false⟩
        else
          match finalDecision rules actualToolName command with
          | none => ⟨0, some ⟨.allow, "Command allowed"⟩, false⟩
          | some w => ⟨0, some ⟨w.decision, w.reason⟩, false⟩

/-! ## The standalone bash-git guard
(src/default-plugin/hooks/bash/bash-git.ts)

This newer copy of the git guard reads the hook input itself and, unlike
the rule in git.ts, extracts the git subcommand by skipping known global
flags.  Its output is either a decision document or the pass-through
`{ continue: true, suppressOutput: true }` response. -/

/-- The response of the standalone bash-git script: a decision, or the
pass-through (no-opinion) response. -/
inductive BashGitResponse where
  | pass
  | decision (v : Verdict) (reason : String)
deriving DecidableEq, Repr

/-- Global git flags that consume a following argument
(bash-git.ts line 63). -/
def flagsWithArg : List String :=
  ["-C", "-c", "--git-dir", "--work-tree", "--namespace", "--super-prefix", "--exec-path"]

/-- Global git flags that stand alone (bash-git.ts line 64). -/
def standaloneFlags : List String :=
  ["--no-pager", "--bare", "--no-replace-objects", "--literal-pathspecs",
   "--glob-pathspecs", "--noglob-pathspecs", "--icase-pathspecs", "--no-optional-locks"]

/-- The scanning loop of `extractGitSubcommand` over the token list after
`git`: skip a flag-with-argument together with its argument, skip
`--flag=value` forms and standalone flags, return the first other token
(or the empty string when the tokens run out). -/
def extractGitSubcommandAux : List String → String
  | [] => ""
  | part :: rest =>
    if flagsWithArg.contains part then
      match rest with
      | [] => ""
      | _ :: rest2 => extractGitSubcommandAux rest2
    else if flagsWithArg.any (fun f => startsWithStr part (f ++ "=")) then
      extractGitSubcommandAux rest
    else if standaloneFlags.contains part then
      extractGitSubcommandAux rest
    else part

/-- `extractGitSubcommand` (bash-git.ts lines 60-78): split on whitespace,
skip the leading `git` token, then scan past known global flags. -/
def extractGitSubcommand (cmd : String) : String :=
  extractGitSubcommandAux ((splitWs cmd).drop 1)

/-- Reason strings of bash-git.ts. -/
def bashGitMultilineReason : String :=
  "Commit messages should be one line only. Add `&& git push` if pushing immediately after."

/-- Reason string of the bash-git add guard. -/
def bashGitAddReason : String :=
  "Solitary git add is disallowed to avoid permission spam. Commit messages must be single-line or will be rejected. Chain git operations with `&&`. Include `&& git push` if pushing after.\nExample: git add foo.ts && git commit -m \"Message\" && git push"

/-- The whole decision pipeline of bash-git.ts over the command read from
the hook input (`(input.tool_input?.command ?? '').trim()`): non-git
commands pass, then the multiline-commit guard, the add-without-`&&`
guard, and the mutation guard over `extractGitSubcommand`. -/
def bashGitGuard (stdinCommand : Option String) : BashGitResponse :=
  let command := trimJs (stdinCommand.getD "")
  let cs := command.data
  if !reGitSpace cs then .pass
  else if containsGitCommit cs && containsDashMWs cs && cs.contains '\n' then
    .decision .deny bashGitMultilineReason
  else if reGitAdd cs && !containsSub "&&".data cs then
    .decision .deny bashGitAddReason
  else if !(GIT_READONLY_COMMANDS.contains (extractGitSubcommand command)) then
    .decision .ask gitMutationReason
  else .pass

/-! ## The session transcript search
(src/claude/tools/session-search.ts; src/bin/claude-session-search.ts is
a near-duplicate whose differences are noted where they matter)

A transcript file is its list of non-blank lines.  Each line is
abstracted at the `parseLine` boundary: `Line.malformed` stands for a
line on which `JSON.parse` throws or `ParsedLineSchema.safeParse` fails
(both make the source `parseLine` return `null`), and `Line.event`
carries the parsed shape. -/

/-- One element of an `assistant` message's content array
(`ContentBlockSchema`: a required `type` string, an optional `text`). -/
structure ContentBlock where
  type : String
  text : Option String
deriving DecidableEq, Repr

/-- The `message.content` union: a plain string or an array of blocks. -/
inductive MsgContent where
  | str (s : String)
  | blocks (bs : List ContentBlock)
deriving DecidableEq, Repr

/-- The `message` object of a parsed line (its `content` is optional). -/
structure ParsedMessage where
  content : Option MsgContent
deriving DecidableEq, Repr

/-- `ParsedLineSchema`: every field optional. -/
structure ParsedLine where
  type : Option String
  message : Option ParsedMessage
  cwd : Option String
  timestamp : Option String
  summary : Option String
deriving DecidableEq, Repr

/-- One line of a transcript file, abstracted at the JSON/zod boundary. -/
inductive Line where
  | malformed (raw : String)
  | event (p : ParsedLine)
deriving DecidableEq, Repr

/-- `parseLine` (session-search.ts lines 74-82): `null` on a malformed line. -/
def parseLine : Line → Option ParsedLine
  | .malformed _ => none
  | .event p => some p

/-- JavaScript truthiness of an optional string: present and non-empty. -/
def truthyStr : Option String → Bool
  | some s => !decide (s = "")
  | none => false

/-- The raw type of a line, `parsed?.type ?? 'parse-error'`
(session-search.ts line 193) — no renaming. -/
def rawLineType (l : Line) : String :=
  match parseLine l with
  | some p => p.type.getD "parse-error"
  | none => "parse-error"

/-- `getLineType` (lines 84-89): the raw type with `assistant` renamed to
`agent` for display. -/
def getLineType (l : Line) : String :=
  let t := rawLineType l
  if t = "assistant" then "agent" else t

/-- ANSI escape fragments (the `colors` table), needed verbatim because
the newline markers are spliced into context and excerpt strings. -/
def colorReset : String := "\x1b[0m"

/-- The `dim` color code. -/
def colorDim : String := "\x1b[2m"

/-- The `newlineFg` color code. -/
def colorNewlineFg : String := "\x1b[97;1m"

/-- Replace every newline of `cs` by `marker`
(the `replace(/\n/g, ...)` calls). -/
def replaceNl (marker : String) (cs : List Char) : String :=
  cs.foldl (fun acc c => acc ++ (if decide (c = '\n') then marker else String.singleton c)) ""

/-- `truncateLine` (lines 91-96): mark newlines, then cut at `maxLen`
characters with an ellipsis. -/
def truncateLine (line : String) (maxLen : Nat) : String :=
  let escaped := replaceNl (colorNewlineFg ++ "\\n" ++ colorReset ++ colorDim) line.data
  if escaped.data.length ≤ maxLen then escaped else (⟨escaped.data.take maxLen⟩ : String) ++ "..."

/-- `extractContent` (lines 113-133): a string content is the text; an
array keeps the non-empty texts of `text`-typed blocks, newline-joined,
and yields `null` when no such block exists; everything else is `null`. -/
def extractContent (l : Line) : Option String :=
  match parseLine l with
  | none => none
  | some p =>
    match p.message with
    | none => none
    | some msg =>
      match msg.content with
      | none => none
      | some (.str s) => some s
      | some (.blocks bs) =>
        let textParts := (bs.filter fun b => decide (b.type = "text") && truthyStr b.text).map
          fun b => b.text.getD ""
        if textParts.isEmpty then none else some (String.intercalate "\n" textParts)

/-- Session metadata (lines 40-46). -/
structure SessionMetadata where
  cwd : Option String
  summary : Option String
  createdAt : Option String
  lastModifiedAt : Option String
  humanMessageCount : Nat
deriving DecidableEq, Repr

/-- One pass of the `extractSessionMetadata` loop body (lines 142-168):
last truthy summary wins, first truthy cwd wins, timestamps from
user/assistant events (first sets `createdAt`, every one sets
`lastModifiedAt`), and the human message count of user events whose
content is a non-empty plain string. -/
def metaStep (m : SessionMetadata) (l : Line) : SessionMetadata :=
  match parseLine l with
  | none => m
  | some p =>
    let summary := if decide (p.type = some "summary") && truthyStr p.summary then p.summary else m.summary
    let cwd := if !truthyStr m.cwd && truthyStr p.cwd then p.cwd else m.cwd
    let isTimed := (decide (p.type = some "user") || decide (p.type = some "assistant")) && truthyStr p.timestamp
    let createdAt := if isTimed && !truthyStr m.createdAt then p.timestamp else m.createdAt
    let lastModifiedAt := if isTimed then p.timestamp else m.lastModifiedAt
    let isHumanText :=
      decide (p.type = some "user") &&
        (match p.message with
         | some msg =>
           match msg.content with
           | some (.str s) => !decide (s = "")
           | _ => false
         | none => false)
    let humanMessageCount := if isHumanText then m.humanMessageCount + 1 else m.humanMessageCount
    ⟨cwd, summary, createdAt, lastModifiedAt, humanMessageCount⟩

/-- `extractSessionMetadata` (lines 135-171). -/
def extractSessionMetadata (lines : List Line) : SessionMetadata :=
  lines.foldl metaStep ⟨none, none, none, none, 0⟩

/-- A context line record (lines 48-52). -/
structure ContextLine where
  lineNumber : Nat
  type : String
  content : String
deriving DecidableEq, Repr

/-- A search result record (lines 54-63). -/
structure SearchResult where
  sessionFile : String
  sessionId : String
  metadata : SessionMetadata
  lineNumber : Nat
  type : String
  matchContext : String
  contextBefore : List ContextLine
  contextAfter : List ContextLine
deriving DecidableEq, Repr

/-- The body of both context-walk loops for the line `l` at index `j`:
the `ContextLine` the loop collects when `extractContent` of the line is
truthy (non-null and non-empty), and `none` when the line is skipped. -/
def ctxLine (l : Line) (j : Nat) : Option ContextLine :=
  match extractContent l with
  | none => none
  | some c => if c = "" then none else some ⟨j + 1, getLineType l, truncateLine c 150⟩

/-- `ctxLine` looked up through the file's line list. -/
def ctxEntry (allLines : List Line) (j : Nat) : Option ContextLine :=
  match allLines.get? j with
  | none => none
  | some l => ctxLine l j

/-- The backward context walk (lines 209-218): from line index `j - 1`
down, collect up to `k` nearest lines whose `extractContent` is truthy,
`unshift`-ing so the result stays in file order. -/
def gatherBefore (allLines : List Line) : Nat → Nat → List ContextLine
  | 0, _ => []
  | j + 1, k =>
    if k = 0 then []
    else
      match ctxEntry allLines j with
      | none => gatherBefore allLines j k
      | some x => gatherBefore allLines j (k - 1) ++ [x]

/-- The forward context walk (lines 221-230) over the suffix of the file
starting at index `j`, collecting up to `k` content-ful lines. -/
def collectAfter : List Line → Nat → Nat → List ContextLine
  | [], _, _ => []
  | l :: rest, j, k =>
    if k = 0 then []
    else
      match ctxLine l j with
      | none => collectAfter rest (j + 1) k
      | some x => x :: collectAfter rest (j + 1) (k - 1)

/-- The match excerpt (lines 232-241): a window of 100 characters before
and 200 (plus the needle) after the first case-insensitive match, with
newline markers and ellipses at truncated boundaries. -/
def excerpt (contentToSearch searchString : String) : String :=
  let mi := firstMatchIdx (toLowerL searchString.data) (toLowerL contentToSearch.data)
  let contextStart := mi - 100
  let contextEnd := min contentToSearch.data.length (mi + searchString.data.length + 200)
  let sub := (contentToSearch.data.drop contextStart).take (contextEnd - contextStart)
  let marked := replaceNl (colorNewlineFg ++ "\\n" ++ colorReset) sub
  (if contextStart > 0 then "..." else "") ++ marked ++
    (if contextEnd < contentToSearch.data.length then "..." else "")

/-- The result built for a match at index `i` (lines 243-252). -/
def mkResult (sessionFile sessionId : String) (meta : SessionMetadata)
    (allLines : List Line) (searchString : String) (contextLines : Nat)
    (i : Nat) (t : String) (contentToSearch : String) : SearchResult :=
  { sessionFile := sessionFile
    sessionId := sessionId
    metadata := meta
    lineNumber := i + 1
    type := t
    matchContext := excerpt contentToSearch searchString
    contextBefore := gatherBefore allLines i contextLines
    contextAfter := collectAfter (allLines.drop (i + 1)) (i + 1) contextLines }

/-- The per-line scan loop of `searchSessionFile` (lines 189-254) over the
remaining lines, `i` being the index of the first of them in the file:
skip lines whose raw type the filter excludes, then match the extracted
content case-insensitively against the search string. -/
def searchAux (sessionFile sessionId : String) (meta : SessionMetadata)
    (allLines : List Line) (searchString : String) (contextLines : Nat)
    (typeFilter : Option (List String)) : List Line → Nat → List SearchResult
  | [], _ => []
  | l :: rest, i =>
    let t := rawLineType l
    if (match typeFilter with
        | some f => !f.contains t
        | none => false) then
      searchAux sessionFile sessionId meta allLines searchString contextLines typeFilter rest (i + 1)
    else
      let contentToSearch := (extractContent l).getD ""
      if containsIgnoreCase contentToSearch searchString then
        mkResult sessionFile sessionId meta allLines searchString contextLines i t contentToSearch ::
          searchAux sessionFile sessionId meta allLines searchString contextLines typeFilter rest (i + 1)
      else
        searchAux sessionFile sessionId meta allLines searchString contextLines typeFilter rest (i + 1)

/-- Node `basename`, for the paths of the search tool: the part after the
last `/`. -/
def basenameStr (p : String) : String :=
  ⟨(p.data.reverse.takeWhile fun c => !decide (c = '/')).reverse⟩

/-- Node `basename(name, '.jsonl')`: additionally strip the extension. -/
def stripJsonl (name : String) : String :=
  if endsWithStr name ".jsonl" then dropRightStr name 6 else name

/-- `searchSessionFile` (lines 173-257) over the non-blank lines of a
file: derive the session id from the path, the metadata once, then scan
every line. -/
def searchSessionFile (filePath : String) (lines : List Line) (searchString : String)
    (contextLines : Nat) (typeFilter : Option (List String)) : List SearchResult :=
  searchAux filePath (stripJsonl (basenameStr filePath)) (extractSessionMetadata lines)
    lines searchString contextLines typeFilter lines 0

/-- The role filter `main` builds from the flags (lines 361-370): note
that `--assistant` contributes the display name `agent`, with a comment
claiming it maps to `assistant` internally. -/
def buildTypeFilter (userOnly assistantOnly : Bool) : Option (List String) :=
  if userOnly && !assistantOnly then some ["user"]
  else if assistantOnly && !userOnly then some ["agent"]
  else if userOnly && assistantOnly then some ["user", "agent"]
  else none

/-! ## Transcript discovery (`findAllSessionFiles` / `walkDir`)

The directory tree under the transcript root is a value of the mutual
inductives below; a path is its list of components (`join` appends one
component).  `walkDirTools` embeds the walk of
src/claude/tools/session-search.ts lines 270-294 (which skips `agent-`
files); `walkDirBin` embeds src/bin/claude-session-search.ts lines
273-291 (which has no such skip). -/

mutual

/-- A directory entry: a file with its mtime, or a subdirectory. -/
inductive FsEntry where
  | file (name : String) (mtimeMs : Int)
  | dir (name : String) (entries : FsList)

/-- A list of directory entries, in `readdirSync` order. -/
inductive FsList where
  | nil
  | cons (e : FsEntry) (rest : FsList)

end

mutual

/-- The walk of session-search.ts over one entry: recurse into
directories; for a `.jsonl` file, skip subagent sessions (session id
starting with `agent-`), apply the mtime cutoff when one is set, and
otherwise collect the full path. -/
def walkEntryTools (cutoff : Option Int) (dirPath : List String) : FsEntry → List (List String)
  | .file name mtimeMs =>
    if endsWithStr name ".jsonl" then
      if startsWithStr (stripJsonl name) "agent-" then []
      else
        match cutoff with
        | some c => if mtimeMs < c then [] else [dirPath ++ [name]]
        | none => [dirPath ++ [name]]
    else []
  | .dir name entries => walkListTools cutoff (dirPath ++ [name]) entries

/-- The walk of session-search.ts over a list of entries. -/
def walkListTools (cutoff : Option Int) (dirPath : List String) : FsList → List (List String)
  | .nil => []
  | .cons e rest => walkEntryTools cutoff dirPath e ++ walkListTools cutoff dirPath rest

end

mutual

/-- The walk of bin/claude-session-search.ts over one entry: identical
except that no `agent-` check is made. -/
def walkEntryBin (cutoff : Option Int) (dirPath : List String) : FsEntry → List (List String)
  | .file name mtimeMs =>
    if endsWithStr name ".jsonl" then
      match cutoff with
      | some c => if mtimeMs < c then [] else [dirPath ++ [name]]
      | none => [dirPath ++ [name]]
    else []
  | .dir name entries => walkListBin cutoff (dirPath ++ [name]) entries

/-- The walk of bin/claude-session-search.ts over a list of entries. -/
def walkListBin (cutoff : Option Int) (dirPath : List String) : FsList → List (List String)
  | .nil => []
  | .cons e rest => walkEntryBin cutoff dirPath e ++ walkListBin cutoff dirPath rest

end

/-! ## Derived predicates and concrete inputs used by the theorems -/

/-- The per-line condition under which the scan loop of
`searchSessionFile` emits a result for a line: the raw type passes the
filter and the extracted content contains the search string
case-insensitively.  (A restatement of the two tests of the loop body,
used to express that matching is pointwise in the line.) -/
def lineMatches (s : String) (typeFilter : Option (List String)) (l : Line) : Bool :=
  (match typeFilter with
   | some f => f.contains (rawLineType l)
   | none => true) && containsIgnoreCase ((extractContent l).getD "") s

/-- A line has non-empty extractable content (the truthiness test the
context walks apply to `extractContent`). -/
def hasNonemptyContent (l : Line) : Bool :=
  match extractContent l with
  | some c => !decide (c = "")
  | none => false

/-- A context line is sound for a file: the file line it points at exists
and has non-empty extractable content. -/
def ctxOk (lines : List Line) (c : ContextLine) : Bool :=
  match lines.get? (c.lineNumber - 1) with
  | some l => hasNonemptyContent l
  | none => false

/-- The three-line transcript of the spec's testable property: a summary
event, a user event with string content "hello world", and an assistant
event with one text block containing "hello universe". -/
def helloTranscript : List Line :=
  [ .event ⟨some "summary", none, none, none, some "Greeting session"⟩,
    .event ⟨some "user", some ⟨some (.str "hello world")⟩, none, none, none⟩,
    .event ⟨some "assistant", some ⟨some (.blocks [⟨"text", some "hello universe"⟩])⟩, none, none, none⟩ ]

/-- A transcript whose middle line is not valid JSON, with matches on the
lines around it. -/
def malformedTranscript : List Line :=
  [ .event ⟨some "user", some ⟨some (.str "hello x")⟩, none, none, none⟩,
    .malformed "not json",
    .event ⟨some "user", some ⟨some (.str "hello z")⟩, none, none, none⟩ ]

/-- A transcript whose matching line is surrounded by tool-result-only
lines (content-less under the extraction rule). -/
def needleTranscript : List Line :=
  [ .event ⟨some "user", some ⟨some (.str "alpha one")⟩, none, none, none⟩,
    .event ⟨some "user", some ⟨some (.blocks [⟨"tool_result", none⟩])⟩, none, none, none⟩,
    .event ⟨some "user", some ⟨some (.str "the needle here")⟩, none, none, none⟩,
    .event ⟨some "user", some ⟨some (.blocks [⟨"tool_result", none⟩])⟩, none, none, none⟩,
    .event ⟨some "user", some ⟨some (.str "omega")⟩, none, none, none⟩ ]

/-- An all-fields-empty search result, used only as the default of
`headD` below. -/
def emptyResult : SearchResult :=
  ⟨"", "", ⟨none, none, none, none, 0⟩, 0, "", "", [], []⟩

/-- The (unique) result of searching `needleTranscript` for "needle". -/
def needleHit : SearchResult :=
  (searchSessionFile "s.jsonl" needleTranscript "needle" 2 none).headD emptyResult

/-- A transcript-root directory tree holding subagent (`agent-`) session
files next to a regular one. -/
def agentTree : FsList :=
  .cons (.file "agent-123.jsonl" 0)
    (.cons (.file "abc.jsonl" 0)
      (.cons (.dir "sub" (.cons (.file "agent-9.jsonl" 5) (.cons (.file "notes.txt" 1) .nil)))
        .nil))

/-- A well-formed hook input document whose command is the read-only
`git status`. -/
def goodStdin : Json :=
  Json.obj [("tool_name", Json.str "Bash"), ("tool_input", Json.obj [("command", Json.str "git status")])]

/-- Two always-firing rules with equal priority, exercising the
tie-break of the decision selection. -/
def tieRuleA : Rule := fun _ => some ⟨.deny, "A", 50⟩

/-- The second always-firing rule of the tie pair. -/
def tieRuleB : Rule := fun _ => some ⟨.ask, "B", 50⟩

/-- The tie-pair rule list. -/
def tieRules : List Rule := [tieRuleA, tieRuleB]

/-! ## Properties of the decision selection (part_000 lines 105-122) -/

/-- The reduce of `highestPriority` returns one of the collected decisions. -/
theorem highestPriority_mem (d : RuleDecision) (ds : List RuleDecision) :
    highestPriority d ds ∈ d :: ds := by
  induction ds generalizing d with
  | nil => simp [highestPriority]
  | cons c rest ih =>
    rw [highestPriority]
    rcases List.mem_cons.mp (ih (if c.priority > d.priority then c else d)) with h1 | h1
    · rw [h1]
      split
      · exact List.mem_cons_of_mem _ (List.mem_cons_self _ _)
      · exact List.mem_cons_self _ _
    · exact List.mem_cons_of_mem _ (List.mem_cons_of_mem _ h1)

/-- No collected decision has a higher priority than the one the reduce keeps. -/
theorem highestPriority_le (d : RuleDecision) (ds : List RuleDecision) :
    ∀ x ∈ d :: ds, x.priority ≤ (highestPriority d ds).priority := by
  induction ds generalizing d with
  | nil =>
    intro x hx
    rw [List.mem_singleton] at hx
    subst hx
    simp [highestPriority]
  | cons c rest ih =>
    intro x hx
    rw [highestPriority]
    have hd'le : d.priority ≤ (if c.priority > d.priority then c else d).priority := by
      split <;> omega
    have hc'le : c.priority ≤ (if c.priority > d.priority then c else d).priority := by
      split
      · omega
      · next h => omega
    have hw := ih (if c.priority > d.priority then c else d)
      (if c.priority > d.priority then c else d) (List.mem_cons_self _ _)
    rcases List.mem_cons.mp hx with h1 | h1
    · subst h1
      exact le_trans hd'le hw
    · rcases List.mem_cons.mp h1 with h2 | h2
      · subst h2
        exact le_trans hc'le hw
      · exact ih _ x (List.mem_cons_of_mem _ h2)

/-- On a priority tie the reduce keeps the earlier decision: the kept
decision is the first of the list whose priority equals its own. -/
theorem highestPriority_first (d : RuleDecision) (ds : List RuleDecision) :
    (d :: ds).find? (fun x => x.priority == (highestPriority d ds).priority) =
      some (highestPriority d ds) := by
  induction ds generalizing d with
  | nil => simp [highestPriority, List.find?_cons]
  | cons c rest ih =>
    by_cases hcd : c.priority > d.priority
    · have hw : highestPriority d (c :: rest) = highestPriority c rest := by
        rw [highestPriority, if_pos hcd]
      have hcw : c.priority ≤ (highestPriority c rest).priority :=
        highestPriority_le c rest c (List.mem_cons_self _ _)
      have hpd : (d.priority == (highestPriority c rest).priority) = false := by
        simp only [beq_eq_false_iff_ne, ne_eq]
        omega
      rw [hw, List.find?_cons]
      simp only [hpd]
      exact ih c
    · have hw : highestPriority d (c :: rest) = highestPriority d rest := by
        rw [highestPriority, if_neg hcd]
      rw [hw]
      have ihd := ih d
      have hdw : d.priority ≤ (highestPriority d rest).priority :=
        highestPriority_le d rest d (List.mem_cons_self _ _)
      rw [List.find?_cons] at ihd
      rw [List.find?_cons]
      by_cases hdweq : d.priority = (highestPriority d rest).priority
      · have hpd : (d.priority == (highestPriority d rest).priority) = true := by
          simp [hdweq]
        simp only [hpd] at ihd
        simp only [hpd]
        exact ihd
      · have hpd : (d.priority == (highestPriority d rest).priority) = false := by
          simp only [beq_eq_false_iff_ne, ne_eq]
          exact hdweq
        have hpc : (c.priority == (highestPriority d rest).priority) = false := by
          simp only [beq_eq_false_iff_ne, ne_eq]
          push_neg at hcd
          omega
        simp only [hpd] at ihd
        simp only [hpd, List.find?_cons, hpc]
        exact ihd

/-- Claim C4: for every command and every non-empty collection of rule
decisions produced for it, the Guard Engine emits the decision with the
strictly highest priority, and when two or more decisions share the
maximal priority the first one in rule-registration (evaluation) order
is emitted. -/
theorem guard_emits_highest_priority_first_on_tie
    (rules : List Rule) (tool cmd : String) (d : RuleDecision) (ds : List RuleDecision)
    (h : decisionsFor rules tool cmd = d :: ds) :
    finalDecision rules tool cmd = some (highestPriority d ds) ∧
    highestPriority d ds ∈ d :: ds ∧
    ((d :: ds).all fun x => decide (x.priority ≤ (highestPriority d ds).priority)) = true ∧
    (d :: ds).find? (fun x => x.priority == (highestPriority d ds).priority) =
      some (highestPriority d ds) := by
  refine ⟨?_, highestPriority_mem d ds, ?_, highestPriority_first d ds⟩
  · rw [finalDecision, h]
  · rw [List.all_eq_true]
    intro x hx
    simpa using highestPriority_le d ds x hx

/-- Witness for C4 at a concrete tie: two rules firing with equal
priority 50 on one command; the first-registered decision is emitted. -/
theorem guard_emits_highest_priority_first_on_tie_witness :
    finalDecision tieRules "Bash" "true" = some (highestPriority ⟨.deny, "A", 50⟩ [⟨.ask, "B", 50⟩]) ∧
    highestPriority ⟨.deny, "A", 50⟩ [⟨.ask, "B", 50⟩] ∈ [(⟨.deny, "A", 50⟩ : RuleDecision), ⟨.ask, "B", 50⟩] ∧
    (([(⟨.deny, "A", 50⟩ : RuleDecision), ⟨.ask, "B", 50⟩]).all fun x =>
      decide (x.priority ≤ (highestPriority ⟨.deny, "A", 50⟩ [⟨.ask, "B", 50⟩]).priority)) = true ∧
    ([(⟨.deny, "A", 50⟩ : RuleDecision), ⟨.ask, "B", 50⟩]).find?
      (fun x => x.priority == (highestPriority ⟨.deny, "A", 50⟩ [⟨.ask, "B", 50⟩]).priority) =
      some (highestPriority ⟨.deny, "A", 50⟩ [⟨.ask, "B", 50⟩]) :=
  guard_emits_highest_priority_first_on_tie tieRules "Bash" "true"
    ⟨.deny, "A", 50⟩ [⟨.ask, "B", 50⟩] (by decide)

/-! ## Concrete evaluations of the guard engine -/

/-- Claim C1 (evaluation at the failing input): on `git -C somedir status`
the pretooluse bash engine — whose git rule reads the raw second
whitespace token — emits the Git Mutation Guard `ask`, not the implicit
allow, even though the first non-flag token after `git` is `status`,
which is in the read-only allow-list; the newer bash-git guard, whose
`extractGitSubcommand` skips global flags, passes the command through. -/
theorem git_dash_c_status_gets_ask_not_allow :
    finalDecision engineRules "Bash" "git -C somedir status" = some gitMutationAskDecision ∧
    gitMutationAskDecision.decision = Verdict.ask ∧
    extractGitSubcommand "git -C somedir status" = "status" ∧
    GIT_READONLY_COMMANDS.contains "status" = true ∧
    bashGitGuard (some "git -C somedir status") = BashGitResponse.pass := by
  refine ⟨by decide, rfl, by decide, by decide, by decide⟩

/-- Claim C6 (evaluation at the failing input): on a well-formed hook
input whose command is the read-only `git status`, a failed debug-file
write makes the engine exit 1 with no decision document, while the same
input with a successful write produces the implicit allow — the debug
write failure blocks the decision path. -/
theorem debug_write_failure_blocks_decision :
    runGuardEngine "bash" engineRules (some goodStdin) false =
      ⟨1, none, true⟩ ∧
    runGuardEngine "bash" engineRules (some goodStdin) true =
      ⟨0, some ⟨Verdict.allow, "Command allowed"⟩, false⟩ := by
  refine ⟨by decide, by decide⟩

/-- Claim C5: for every standard input that is not valid JSON (modelled
as a `JSON.parse` failure), the engine exits non-zero, writes a
diagnostic to standard error, and emits no decision document. -/
theorem invalid_json_is_fatal_without_decision
    (toolNameArg : String) (rules : List Rule) (debugWriteOk : Bool) :
    (runGuardEngine toolNameArg rules none debugWriteOk).exitCode ≠ 0 ∧
    (runGuardEngine toolNameArg rules none debugWriteOk).stdoutDecision = none ∧
    (runGuardEngine toolNameArg rules none debugWriteOk).stderrDiagnostic = true := by
  cases debugWriteOk <;> simp [runGuardEngine]

/-- Witness for C5 at concrete arguments. -/
theorem invalid_json_is_fatal_without_decision_witness :
    (runGuardEngine "bash" engineRules none true).exitCode ≠ 0 ∧
    (runGuardEngine "bash" engineRules none true).stdoutDecision = none ∧
    (runGuardEngine "bash" engineRules none true).stderrDiagnostic = true :=
  invalid_json_is_fatal_without_decision "bash" engineRules true

/-! ## Concrete evaluations of the transcript search -/

/-- Claim C9: on the three-line transcript (summary, user "hello world",
assistant text block "hello universe"), searching "hello" with no role
filter yields exactly 2 results — the user and assistant events — and
with the user-only filter exactly 1 result, the user event. -/
theorem hello_transcript_counts :
    (searchSessionFile "f.jsonl" helloTranscript "hello" 2 none).length = 2 ∧
    (searchSessionFile "f.jsonl" helloTranscript "hello" 2 none).map
      (fun r => (r.lineNumber, r.type)) = [(2, "user"), (3, "assistant")] ∧
    (searchSessionFile "f.jsonl" helloTranscript "hello" 2 (buildTypeFilter true false)).map
      (fun r => (r.lineNumber, r.type)) = [(2, "user")] := by
  refine ⟨by decide, by decide, by decide⟩

/-- Claim C2 (evaluation at the failing input): the agent-only filter is
built as `["agent"]` but the scan compares the raw parsed type
(`assistant`), so searching the same matching transcript with
`--assistant` yields no results at all, while the unfiltered search
finds the assistant event and the user-only filter works. -/
theorem assistant_filter_returns_nothing :
    buildTypeFilter false true = some ["agent"] ∧
    searchSessionFile "f.jsonl" helloTranscript "hello" 2 (buildTypeFilter false true) = [] ∧
    (searchSessionFile "f.jsonl" helloTranscript "hello" 2 none).map
      (fun r => (r.lineNumber, r.type)) = [(2, "user"), (3, "assistant")] ∧
    (searchSessionFile "f.jsonl" helloTranscript "hello" 2 (buildTypeFilter true false)).map
      (fun r => (r.lineNumber, r.type)) = [(2, "user")] := by
  refine ⟨by decide, by decide, by decide, by decide⟩

/-- Counterexample for C8: the discovery walk of
bin/claude-session-search.ts scans `agent-123.jsonl`, a file whose
session identifier starts with `agent-`, instead of excluding it. -/
theorem bin_walk_scans_agent_transcript :
    ["projects", "agent-123.jsonl"] ∈ walkListBin none ["projects"] agentTree ∧
    startsWithStr (stripJsonl "agent-123.jsonl") "agent-" = true := by
  refine ⟨by decide, by decide⟩

/-! ## The add-without-commit guard always wins (claim C3) -/

/-- Both conjuncts of a true Boolean conjunction. -/
theorem bool_and_split {a b : Bool} (h : (a && b) = true) : a = true ∧ b = true := by
  simp only [Bool.and_eq_true] at h
  exact h

/-- A command whose first three characters are `git` is that prefix
followed by its own remainder. -/
theorem take3_git_shape {cs : List Char} (h : cs.take 3 = ['g', 'i', 't']) :
    cs = 'g' :: 'i' :: 't' :: cs.drop 3 := by
  have h2 := List.take_append_drop 3 cs
  rw [h] at h2
  simpa using h2.symm

/-- A command matching the anchored git-add regex also matches the git
rule's entry guard `^git\s`. -/
theorem reGitSpace_of_reGitAdd {cs : List Char} (h : reGitAdd cs = true) :
    reGitSpace cs = true := by
  unfold reGitAdd at h
  obtain ⟨h1, h2⟩ := bool_and_split h
  unfold reGitSpace
  rw [h1, Bool.true_and]
  cases hd : cs.drop 3 with
  | nil =>
    rw [hd] at h2
    simp [wsThenAdd] at h2
  | cons a rest =>
    rw [hd] at h2
    unfold wsThenAdd at h2
    exact (bool_and_split h2).1

/-- On a command matching `^git\s+add\b` with no chained `git commit`, the
git rule fires the add-without-commit deny (priority 110). -/
theorem gitEvaluate_add (ctx : RuleContext)
    (hadd : reGitAdd ctx.normalizedCommand.data = true)
    (hnc : containsGitCommit ctx.normalizedCommand.data = false) :
    gitEvaluate ctx = some gitAddDenyDecision := by
  have hspace := reGitSpace_of_reGitAdd hadd
  simp [gitEvaluate, hspace, hnc, hadd]

/-- The cd rule has no opinion on a command starting with `git`. -/
theorem cdEvaluate_git (ctx : RuleContext) (rest : List Char)
    (h : ctx.normalizedCommand.data = 'g' :: 'i' :: 't' :: rest) :
    cdEvaluate ctx = none := by
  unfold cdEvaluate
  rw [h]
  rfl

/-- The find rule has no opinion on a command starting with `git`. -/
theorem findEvaluate_git (ctx : RuleContext) (rest : List Char)
    (h : ctx.normalizedCommand.data = 'g' :: 'i' :: 't' :: rest) :
    findEvaluate ctx = none := by
  unfold findEvaluate
  rw [h]
  rfl

/-- The grep rule has no opinion on a command starting with `git`. -/
theorem grepEvaluate_git (ctx : RuleContext) (rest : List Char)
    (h : ctx.normalizedCommand.data = 'g' :: 'i' :: 't' :: rest) :
    grepEvaluate ctx = none := by
  unfold grepEvaluate
  rw [h]
  rfl

/-- Claim C3: for every command matching `^git\s+add\b` (after the
engine's trim) that does not also contain a chained `git commit`, the
Guard Engine's final emitted decision is the add-without-commit deny,
whose priority is at least 110, regardless of which other rules are
registered in the catalog. -/
theorem git_add_without_commit_denied (cmd : String)
    (hadd : reGitAdd (trimJs cmd).data = true)
    (hnc : containsGitCommit (trimJs cmd).data = false) :
    finalDecision engineRules "Bash" cmd = some gitAddDenyDecision ∧
    gitAddDenyDecision.decision = Verdict.deny ∧
    (110 : Int) ≤ gitAddDenyDecision.priority := by
  have h1 : (trimJs cmd).data.take 3 = ['g', 'i', 't'] := by
    unfold reGitAdd at hadd
    exact of_decide_eq_true (bool_and_split hadd).1
  have hshape := take3_git_shape h1
  have hgit : gitEvaluate ⟨"Bash", cmd, trimJs cmd⟩ = some gitAddDenyDecision :=
    gitEvaluate_add _ hadd hnc
  have hcd : cdEvaluate ⟨"Bash", cmd, trimJs cmd⟩ = none :=
    cdEvaluate_git _ _ hshape
  have hfind : findEvaluate ⟨"Bash", cmd, trimJs cmd⟩ = none :=
    findEvaluate_git _ _ hshape
  have hgrep : grepEvaluate ⟨"Bash", cmd, trimJs cmd⟩ = none :=
    grepEvaluate_git _ _ hshape
  refine ⟨?_, rfl, by norm_num [gitAddDenyDecision]⟩
  unfold finalDecision decisionsFor engineRules
  simp [List.filterMap_cons, hgit, hcd, hfind, hgrep, highestPriority]

/-- Witness for C3 at the concrete command `git add foo.ts`. -/
theorem git_add_without_commit_denied_witness :
    finalDecision engineRules "Bash" "git add foo.ts" = some gitAddDenyDecision ∧
    gitAddDenyDecision.decision = Verdict.deny ∧
    (110 : Int) ≤ gitAddDenyDecision.priority :=
  git_add_without_commit_denied "git add foo.ts" (by decide) (by decide)

/-! ## Per-line independence of the scan (claim C7) -/

/-- Every line of the remaining list that passes the filter and matches
the search string produces a result, whatever the other lines hold. -/
theorem searchAux_finds (fp sid : String) (meta : SessionMetadata) (allLines : List Line)
    (s : String) (k : Nat) (filter : Option (List String)) :
    ∀ (ls : List Line) (j i : Nat) (l : Line),
      ls.get? i = some l → lineMatches s filter l = true →
      (searchAux fp sid meta allLines s k filter ls j).any
        (fun r => r.lineNumber == j + i + 1) = true := by
  intro ls
  induction ls with
  | nil =>
    intro j i l hget _
    simp at hget
  | cons a rest ih =>
    intro j i l hget hmatch
    cases i with
    | zero =>
      rw [List.get?_cons_zero] at hget
      injection hget with hal
      subst hal
      unfold lineMatches at hmatch
      obtain ⟨hpass, hcont⟩ := bool_and_split hmatch
      simp only [searchAux]
      split
      · next hskip =>
        exfalso
        cases filter with
        | none => simp at hskip
        | some f =>
          have hf : f.contains (rawLineType a) = true := hpass
          have hskip' : (!f.contains (rawLineType a)) = true := hskip
          rw [hf] at hskip'
          simp at hskip'
      · simp [hcont, List.any_cons, mkResult]
    | succ m =>
      rw [List.get?_cons_succ] at hget
      have ihm := ih (j + 1) m l hget hmatch
      have harith : j + 1 + m + 1 = j + (m + 1) + 1 := by omega
      simp only [harith] at ihm
      simp only [searchAux]
      split
      · exact ihm
      · split
        · simp only [List.any_cons, ihm, Bool.or_true]
        · exact ihm

/-- Claim C7: a transcript line that is not valid JSON is treated as a
`parse-error` typed event and never aborts the scan — every other line
that passes the filter and matches the search string still produces its
result, whatever the surrounding lines hold. -/
theorem malformed_line_never_aborts_scan :
    (∀ raw, rawLineType (Line.malformed raw) = "parse-error") ∧
    (∀ (filePath : String) (lines : List Line) (s : String) (k : Nat)
        (filter : Option (List String)) (i : Nat) (l : Line),
      lines.get? i = some l → lineMatches s filter l = true →
      (searchSessionFile filePath lines s k filter).any
        (fun r => r.lineNumber == i + 1) = true) := by
  constructor
  · intro raw
    rfl
  · intro fp lines s k filter i l hget hmatch
    have h := searchAux_finds fp (stripJsonl (basenameStr fp)) (extractSessionMetadata lines)
      lines s k filter lines 0 i l hget hmatch
    simpa [searchSessionFile] using h

/-! ## Context-gathering invariants (claim C10) -/

/-- A collected context line records the next line number and a line with
non-empty extractable content. -/
theorem ctxLine_sound {l : Line} {j : Nat} {x : ContextLine} (h : ctxLine l j = some x) :
    x.lineNumber = j + 1 ∧ hasNonemptyContent l = true := by
  unfold ctxLine at h
  split at h
  · simp at h
  · rename_i c hec
    split at h
    · simp at h
    · rename_i hc
      injection h with h1
      subst h1
      refine ⟨rfl, ?_⟩
      unfold hasNonemptyContent
      rw [hec]
      simp [hc]

/-- A context entry collected at index `j` is sound for the file. -/
theorem ctxEntry_sound {allLines : List Line} {j : Nat} {x : ContextLine}
    (h : ctxEntry allLines j = some x) : ctxOk allLines x = true := by
  unfold ctxEntry at h
  split at h
  · simp at h
  · rename_i l hget
    obtain ⟨hln, hne⟩ := ctxLine_sound h
    unfold ctxOk
    rw [hln]
    simp only [Nat.add_sub_cancel]
    rw [hget]
    exact hne

/-- The backward walk collects at most `k` context lines. -/
theorem gatherBefore_length (L : List Line) :
    ∀ j k, (gatherBefore L j k).length ≤ k := by
  intro j
  induction j with
  | zero =>
    intro k
    simp [gatherBefore]
  | succ j ih =>
    intro k
    simp only [gatherBefore]
    by_cases hk : k = 0
    · rw [if_pos hk]
      simp
    · rw [if_neg hk]
      cases hx : ctxEntry L j with
      | none => exact ih k
      | some x =>
        have h := ih (k - 1)
        have hgoal : (gatherBefore L j (k - 1) ++ [x]).length ≤ k := by
          rw [List.length_append, List.length_singleton]
          omega
        exact hgoal

/-- Every context line of the backward walk is sound for the file. -/
theorem gatherBefore_sound (L : List Line) :
    ∀ j k c, c ∈ gatherBefore L j k → ctxOk L c = true := by
  intro j
  induction j with
  | zero =>
    intro k c hc
    simp [gatherBefore] at hc
  | succ j ih =>
    intro k c hc
    simp only [gatherBefore] at hc
    by_cases hk : k = 0
    · rw [if_pos hk] at hc
      simp at hc
    · rw [if_neg hk] at hc
      cases hx : ctxEntry L j with
      | none =>
        rw [hx] at hc
        exact ih k c hc
      | some x =>
        rw [hx] at hc
        have hc' : c ∈ gatherBefore L j (k - 1) ++ [x] := hc
        rcases List.mem_append.mp hc' with h1 | h1
        · exact ih (k - 1) c h1
        · rw [List.mem_singleton] at h1
          subst h1
          exact ctxEntry_sound hx

/-- The forward walk collects at most `k` context lines. -/
theorem collectAfter_length :
    ∀ (ls : List Line) (j k : Nat), (collectAfter ls j k).length ≤ k := by
  intro ls
  induction ls with
  | nil =>
    intro j k
    simp [collectAfter]
  | cons a rest ih =>
    intro j k
    simp only [collectAfter]
    by_cases hk : k = 0
    · rw [if_pos hk]
      simp
    · rw [if_neg hk]
      cases hx : ctxLine a j with
      | none => exact ih (j + 1) k
      | some x =>
        have h := ih (j + 1) (k - 1)
        have hgoal : (x :: collectAfter rest (j + 1) (k - 1)).length ≤ k := by
          rw [List.length_cons]
          omega
        exact hgoal

/-- Every context line of the forward walk over a suffix of the file is
sound for the file, given that the suffix's indexing agrees with the
file's. -/
theorem collectAfter_sound (L : List Line) :
    ∀ (ls : List Line) (j k : Nat),
      (∀ m l, ls.get? m = some l → L.get? (j + m) = some l) →
      ∀ c ∈ collectAfter ls j k, ctxOk L c = true := by
  intro ls
  induction ls with
  | nil =>
    intro j k _ c hc
    simp [collectAfter] at hc
  | cons a rest ih =>
    intro j k hinv c hc
    simp only [collectAfter] at hc
    by_cases hk : k = 0
    · rw [if_pos hk] at hc
      simp at hc
    · rw [if_neg hk] at hc
      have hinv' : ∀ m l, rest.get? m = some l → L.get? (j + 1 + m) = some l := by
        intro m l hm
        have h := hinv (m + 1) l (by rwa [List.get?_cons_succ])
        rwa [show j + (m + 1) = j + 1 + m from by omega] at h
      cases hx : ctxLine a j with
      | none =>
        rw [hx] at hc
        exact ih (j + 1) k hinv' c hc
      | some x =>
        rw [hx] at hc
        have hc' : c ∈ x :: collectAfter rest (j + 1) (k - 1) := hc
        rcases List.mem_cons.mp hc' with h1 | h1
        · subst h1
          obtain ⟨hln, hne⟩ := ctxLine_sound hx
          unfold ctxOk
          rw [hln]
          simp only [Nat.add_sub_cancel]
          have hL : L.get? j = some a := by
            have h0 := hinv 0 a (by rw [List.get?_cons_zero])
            simpa using h0
          rw [hL]
          exact hne
        · exact ih (j + 1) (k - 1) hinv' c h1

/-- Every result of the scan loop is the record built for a match at
some index. -/
theorem searchAux_result_shape (fp sid : String) (meta : SessionMetadata) (allLines : List Line)
    (s : String) (k : Nat) (filter : Option (List String)) :
    ∀ (ls : List Line) (j : Nat) (r : SearchResult),
      r ∈ searchAux fp sid meta allLines s k filter ls j →
      ∃ i t c, r = mkResult fp sid meta allLines s k i t c := by
  intro ls
  induction ls with
  | nil =>
    intro j r hr
    simp [searchAux] at hr
  | cons a rest ih =>
    intro j r hr
    simp only [searchAux] at hr
    split at hr
    · exact ih (j + 1) r hr
    · split at hr
      · rcases List.mem_cons.mp hr with h1 | h1
        · exact ⟨j, _, _, h1⟩
        · exact ih (j + 1) r h1
      · exact ih (j + 1) r hr

/-- Claim C10: for every match with the fixed context count 2, the
gathered context before and after each contains at most 2 lines, every
gathered context line points at an existing line of the file with
non-empty extractable content, and hence no content-less line is ever
included, even adjacent to the match. -/
theorem context_lines_bounded_and_contentful (filePath : String) (lines : List Line)
    (s : String) (filter : Option (List String)) (r : SearchResult)
    (hr : r ∈ searchSessionFile filePath lines s 2 filter) :
    r.contextBefore.length ≤ 2 ∧ r.contextAfter.length ≤ 2 ∧
    (r.contextBefore.all fun c => ctxOk lines c) = true ∧
    (r.contextAfter.all fun c => ctxOk lines c) = true := by
  have hshape := searchAux_result_shape filePath (stripJsonl (basenameStr filePath))
    (extractSessionMetadata lines) lines s 2 filter lines 0 r hr
  obtain ⟨i, t, c, rfl⟩ := hshape
  refine ⟨gatherBefore_length lines i 2, collectAfter_length (lines.drop (i + 1)) (i + 1) 2, ?_, ?_⟩
  · rw [List.all_eq_true]
    intro x hx
    exact gatherBefore_sound lines i 2 x hx
  · rw [List.all_eq_true]
    intro x hx
    refine collectAfter_sound lines (lines.drop (i + 1)) (i + 1) 2 ?_ x hx
    intro m l hm
    rwa [List.get?_drop] at hm

/-- Witness for C10 at the concrete transcript whose match is surrounded
by tool-result-only lines. -/
theorem context_lines_bounded_and_contentful_witness :
    needleHit.contextBefore.length ≤ 2 ∧ needleHit.contextAfter.length ≤ 2 ∧
    (needleHit.contextBefore.all fun c => ctxOk needleTranscript c) = true ∧
    (needleHit.contextAfter.all fun c => ctxOk needleTranscript c) = true :=
  context_lines_bounded_and_contentful "s.jsonl" needleTranscript "needle" none needleHit
    (by decide)

/-! ## Discovery of the claude/tools search never scans subagent files
(claim C8, amended) -/

mutual

/-- No file collected from one entry by the tools-variant walk has a
session identifier starting with `agent-`. -/
theorem walkEntryTools_no_agent (cutoff : Option Int) (dirPath : List String) (e : FsEntry) :
    ∀ p ∈ walkEntryTools cutoff dirPath e, ∀ nm, p.getLast? = some nm →
      startsWithStr (stripJsonl nm) "agent-" = false := by
  match e with
  | .file name mtimeMs =>
    intro p hp nm hnm
    simp only [walkEntryTools] at hp
    split at hp
    · split at hp
      · simp at hp
      · next hagent =>
        split at hp
        · split at hp
          · simp at hp
          · rw [List.mem_singleton] at hp
            subst hp
            rw [List.getLast?_concat] at hnm
            injection hnm with hnm1
            subst hnm1
            simpa using hagent
        · rw [List.mem_singleton] at hp
          subst hp
          rw [List.getLast?_concat] at hnm
          injection hnm with hnm1
          subst hnm1
          simpa using hagent
    · simp at hp
  | .dir name entries =>
    intro p hp nm hnm
    exact walkListTools_no_agent cutoff (dirPath ++ [name]) entries p hp nm hnm

/-- No file collected from a list of entries by the tools-variant walk
has a session identifier starting with `agent-`. -/
theorem walkListTools_no_agent (cutoff : Option Int) (dirPath : List String) (es : FsList) :
    ∀ p ∈ walkListTools cutoff dirPath es, ∀ nm, p.getLast? = some nm →
      startsWithStr (stripJsonl nm) "agent-" = false := by
  match es with
  | .nil =>
    intro p hp
    simp [walkListTools] at hp
  | .cons e rest =>
    intro p hp nm hnm
    simp only [walkListTools] at hp
    rcases List.mem_append.mp hp with h1 | h1
    · exact walkEntryTools_no_agent cutoff dirPath e p h1 nm hnm
    · exact walkListTools_no_agent cutoff dirPath rest p h1 nm hnm

end

/-- Claim C8 (amended): discovery in the claude/tools session search
never returns a subagent transcript — every file its walk collects has a
session identifier (last path component without the `.jsonl` extension)
that does not start with `agent-`.  (The bin variant's walk has no such
filter; see the counterexample.) -/
theorem tools_discovery_excludes_agent_transcripts (cutoff : Option Int)
    (rootPath : List String) (entries : FsList) (p : List String)
    (hp : p ∈ walkListTools cutoff rootPath entries) (nm : String)
    (hnm : p.getLast? = some nm) :
    startsWithStr (stripJsonl nm) "agent-" = false :=
  walkListTools_no_agent cutoff rootPath entries p hp nm hnm

/-- Witness for C8 at the concrete tree: the collected `abc.jsonl` is no
agent transcript. -/
theorem tools_discovery_excludes_agent_transcripts_witness :
    startsWithStr (stripJsonl "abc.jsonl") "agent-" = false :=
  tools_discovery_excludes_agent_transcripts none ["projects"] agentTree
    ["projects", "abc.jsonl"] (by decide) "abc.jsonl" (by decide)

end Devkit
